import Mathlib

/-!
# Verification of the SHL assessment-recommendation retrieval core

Shallow embedding of the query -> ranking engine of the repository
(`src/url_utils.py`, `src/retriever.py`, `src/advanced_retriever.py`,
`src/ensemble_retriever.py`, `src/xgboost_reranker.py`) together with
proofs / refutations of the frozen behavioural claims.

Modelling conventions:
* Python strings are modelled as `List Nat` of Unicode code points
  (`codes` converts a Lean string literal for concrete test inputs).
* Python floats are modelled as `ℚ`; the claims under study are about
  structural behaviour (ordering, list lengths, fallbacks), not about
  floating-point rounding.
* Python `list.sort(key=k, reverse=True)` is a *stable* descending sort
  (CPython guarantee); it is modelled by the stable insertion sort
  `pySortDesc`.
* External effects (the Gemini embedding call, the FAISS index search,
  loading of pickled artifacts, the trained XGBoost model) are passed in
  as explicit values: an `Option` embedding, a search-result list, an
  `Except`-valued load outcome, a model capability record.
-/

namespace SHL

/-! ## Code-point string utilities (models of Python `str` operations) -/

/-- Code points of a string literal, for concrete inputs in theorems. -/
def codes (s : String) : List Nat := s.toList.map Char.toNat

/-- Model of Python `str.lower` on a single ASCII code point. -/
def lowerChar (n : Nat) : Nat := if 65 ≤ n ∧ n ≤ 90 then n + 32 else n

/-- Model of Python `str.lower`. -/
def lowerStr (l : List Nat) : List Nat := l.map lowerChar

/-- Python whitespace class (`\s`, and the characters stripped by `str.strip`). -/
def isWSC (n : Nat) : Bool := n = 32 || n = 9 || n = 10 || n = 13 || n = 11 || n = 12

/-- ASCII decimal digit test (`\d`). -/
def isDigitC (n : Nat) : Bool := 48 ≤ n && n ≤ 57

/-- Model of Python `str.strip()` (no arguments: strips whitespace on both ends). -/
def pyStrip (l : List Nat) : List Nat :=
  ((l.dropWhile isWSC).reverse.dropWhile isWSC).reverse

/-- Model of Python `str.rstrip('/')`. -/
def rstripSlash (l : List Nat) : List Nat :=
  (l.reverse.dropWhile (fun c => c == 47)).reverse

/-- `leadsWith pat l` holds when `pat` is an initial segment of `l`
(model of Python `str.startswith`, used to build substring search). -/
def leadsWith : List Nat → List Nat → Bool
  | [], _ => true
  | _ :: _, [] => false
  | p :: ps, c :: cs => p == c && leadsWith ps cs

/-- `hasSub pat l` models Python's substring test `pat in l`. -/
def hasSub (pat : List Nat) : List Nat → Bool
  | [] => pat.isEmpty
  | c :: cs => leadsWith pat (c :: cs) || hasSub pat cs

/-- Text after the *last* occurrence of `sep`, if `sep` occurs at all.
Models `s.split(sep)[-1]` on the occurrence case. -/
def afterLastOcc (sep : List Nat) : List Nat → Option (List Nat)
  | [] => none
  | c :: cs =>
    match afterLastOcc sep cs with
    | some r => some r
    | none =>
      if leadsWith sep (c :: cs) then some ((c :: cs).drop sep.length) else none

/-- Model of Python `str.replace(pat, rep)` (all occurrences, left to right,
non-overlapping).  Only called with non-empty patterns. -/
def replaceAll (pat rep : List Nat) : List Nat → List Nat
  | [] => []
  | c :: cs =>
    if h : pat ≠ [] ∧ leadsWith pat (c :: cs) then
      rep ++ replaceAll pat rep ((c :: cs).drop pat.length)
    else
      c :: replaceAll pat rep cs
  termination_by l => l.length
  decreasing_by
    · simp only [List.length_drop, List.length_cons]
      have : pat.length ≠ 0 := fun hl => h.1 (List.length_eq_zero.mp hl)
      omega
    · simp [Nat.lt_succ_self]

/-- Value of the maximal digit run at the head of `l` (the group captured by
a leading greedy `\d+`). -/
def numVal (l : List Nat) : Nat :=
  (l.takeWhile isDigitC).foldl (fun a d => a * 10 + (d - 48)) 0

/-- Accumulator-based splitter behind `splitWS`; `cur` holds the reversed
current word. -/
def splitWSGo (cur : List Nat) : List Nat → List (List Nat)
  | [] => if cur.isEmpty then [] else [cur.reverse]
  | c :: cs =>
    if isWSC c then
      if cur.isEmpty then splitWSGo [] cs else cur.reverse :: splitWSGo [] cs
    else
      splitWSGo (c :: cur) cs

/-- Words of a string: split on whitespace runs, dropping empties
(model of Python `str.split()`). -/
def splitWS (l : List Nat) : List (List Nat) := splitWSGo [] l

/-! ## Regex-pattern models for `preprocess_query`'s duration patterns

Each duration pattern used in `advanced_retriever.preprocess_query` is a
deterministic scan: Python's `re.search` tries start positions left to
right, and for these patterns backtracking inside a candidate start can
never succeed where the greedy parse fails (a shortened `\d+`/`\s*`/`[:\s]*`
run leaves a digit / whitespace / colon where a letter or digit is
required).  The matchers below therefore parse greedily at each start
position, scanning left to right. -/

/-- Greedy `\d+` at the head of `l`: its numeric value and the rest. -/
def expectDigits (l : List Nat) : Option (Nat × List Nat) :=
  match l with
  | c :: _ => if isDigitC c then some (numVal l, l.dropWhile isDigitC) else none
  | [] => none

/-- Literal match at the head of `l`. -/
def expectLit (lit l : List Nat) : Option (List Nat) :=
  if leadsWith lit l then some (l.drop lit.length) else none

/-- Greedy `\s*`. -/
def skipWS (l : List Nat) : List Nat := l.dropWhile isWSC

/-- Greedy `[:\s]*`. -/
def skipColonWS (l : List Nat) : List Nat :=
  l.dropWhile (fun c => isWSC c || c == 58)

/-- Anchored match of `(\d+)\s*LIT` (e.g. `(\d+)\s*minutes?` — the optional
trailing `s?` never affects matching success or the captured group). -/
def matchNumLit (lit l : List Nat) : Option Nat :=
  match expectDigits l with
  | none => none
  | some (n, r) =>
    match expectLit lit (skipWS r) with
    | none => none
    | some _ => some n

/-- Anchored match of `LIT[:\s]*(\d+)` (`duration[:\s]*(\d+)`, `max[:\s]*(\d+)`)
or `LIT\s*(\d+)` (`about\s*(\d+)`). -/
def matchLitNum (lit : List Nat) (colonToo : Bool) (l : List Nat) : Option Nat :=
  match expectLit lit l with
  | none => none
  | some r =>
    match expectDigits (if colonToo then skipColonWS r else skipWS r) with
    | none => none
    | some (n, _) => some n

/-- Anchored match of `(\d+)\s*SEP\s*(\d+)\s*LIT` (the two range patterns);
returns the second captured group (the range's upper bound). -/
def matchRange (sep lit l : List Nat) : Option Nat :=
  match expectDigits l with
  | none => none
  | some (_, r1) =>
    match expectLit sep (skipWS r1) with
    | none => none
    | some r2 =>
      match expectDigits (skipWS r2) with
      | none => none
      | some (n2, r3) =>
        match expectLit lit (skipWS r3) with
        | none => none
        | some _ => some n2

/-- `re.search`: try the anchored matcher at each start position, left to
right; first success wins. -/
def searchPat (m : List Nat → Option Nat) : List Nat → Option Nat
  | [] => none
  | c :: cs =>
    match m (c :: cs) with
    | some n => some n
    | none => searchPat m cs

/-! ## `advanced_retriever.preprocess_query`, duration part (lines 61-85) -/

/-- The fixed, priority-ordered duration pattern list of `preprocess_query`,
applied to the lowercased query text; the first pattern that matches wins
(range patterns capture the upper bound).  After a match, the code
multiplies by 60 whenever the substring `hour` or `hr` occurs anywhere in
the query. -/
def extract_duration (q : List Nat) : Option Nat :=
  let base :=
    match searchPat (matchNumLit (codes "minute")) q with
    | some n => some n
    | none =>
    match searchPat (matchNumLit (codes "min")) q with
    | some n => some n
    | none =>
    match searchPat (matchNumLit (codes "hour")) q with
    | some n => some n
    | none =>
    match searchPat (matchNumLit (codes "hr")) q with
    | some n => some n
    | none =>
    match searchPat (matchLitNum (codes "duration") true) q with
    | some n => some n
    | none =>
    match searchPat (matchLitNum (codes "max") true) q with
    | some n => some n
    | none =>
    match searchPat (matchLitNum (codes "about") false) q with
    | some n => some n
    | none =>
    match searchPat (matchRange (codes "-") (codes "minute")) q with
    | some n => some n
    | none => searchPat (matchRange (codes "to") (codes "minute")) q
  match base with
  | none => none
  | some d =>
    if hasSub (codes "hour") q || hasSub (codes "hr") q then some (d * 60)
    else some d

/-! ## `url_utils.normalize_url_to_slug` (lines 8-34) -/

/-- `"/view/"` separator. -/
def viewSep : List Nat := codes "/view/"

/-- Percent-decoding steps applied to a slug, in source order:
`%28 -> (` (code 40), `%29 -> )` (41), `%20 -> space` (32),
`%2d -> -` (45). -/
def decodeSlug (l : List Nat) : List Nat :=
  replaceAll (codes "%2d") [45]
    (replaceAll (codes "%20") [32]
      (replaceAll (codes "%29") [41]
        (replaceAll (codes "%28") [40] l)))

/-- `url_utils.normalize_url_to_slug`: lowercase, strip, strip trailing
slashes; if `/view/` occurs, keep the text after its last occurrence,
strip trailing slashes again and percent-decode; otherwise return the
normalized URL itself. -/
def normalize_url_to_slug (url : List Nat) : List Nat :=
  if url.isEmpty then []
  else
    match afterLastOcc viewSep (rstripSlash (pyStrip (lowerStr url))) with
    | some slug0 => decodeSlug (rstripSlash slug0)
    | none => rstripSlash (pyStrip (lowerStr url))

/-! ## Data model -/

/-- A record of the persisted metadata array (one per indexed item).
`Option` fields model dictionary keys that may be absent (or `None`);
the code reads them with `.get(...)` defaults. -/
structure Meta where
  url : List Nat
  alternate_urls : List (List Nat) := []
  name : List Nat := []
  description : Option (List Nat) := none
  duration : Option Nat := none
  remote_support : Option (List Nat) := none
  adaptive_support : Option (List Nat) := none
  test_type : Option (List (List Nat)) := none
  deriving Repr, DecidableEq

/-- A per-query candidate dictionary.  Score keys that a stage may not have
set yet default to `0` (the code reads them with `.get(key, 0)`), and the
optional catalog fields mirror `Meta`. -/
structure Candidate where
  url : List Nat
  alternate_urls : List (List Nat) := []
  name : List Nat := []
  description : Option (List Nat) := none
  duration : Option Nat := none
  remote_support : Option (List Nat) := none
  adaptive_support : Option (List Nat) := none
  test_type : Option (List (List Nat)) := none
  semantic_score : ℚ := 0
  keyword_score : ℚ := 0
  combined_score : ℚ := 0
  distance : ℚ := 0
  rerank_score : ℚ := 0
  score : Option ℚ := none
  ensemble_score : ℚ := 0
  rrf_score : ℚ := 0
  xgboost_score : ℚ := 0
  deriving Repr, DecidableEq

/-- The structured signals `preprocess_query` extracts from a query. -/
structure QueryInfo where
  original_query : List Nat := []
  duration : Option Nat := none
  skills : List (List Nat) := []
  roles : List (List Nat) := []
  test_types : List (List Nat) := []
  expanded_query : List Nat := []
  deriving Repr, DecidableEq

/-- The FAISS index: its size and its nearest-neighbour search capability
(`search(query_vec, k)` returning `(distance, index)` pairs). -/
structure FaissIndex where
  ntotal : Nat
  search : List ℚ → Nat → List (ℚ × Nat)

/-- The loaded vector database: paired index + metadata array. -/
structure VectorDB where
  index : FaissIndex
  metadata : List Meta

/-- Python truthiness of the value returned by `get_query_embedding`
(`None` and the empty list are both falsy). -/
def embTruthy (e : Option (List ℚ)) : Bool :=
  match e with
  | none => false
  | some v => !v.isEmpty

/-! ## `retriever.get_vector_db` (lines 34-46) -/

inductive LoadError where
  | fileNotFound
  deriving Repr, DecidableEq

/-- `retriever.get_vector_db`: raises `FileNotFoundError` when either
artifact file is absent, and otherwise returns the pair as loaded —
the source performs no size-consistency check between the FAISS index
and the metadata array. -/
def get_vector_db (indexFileExists metadataFileExists : Bool)
    (idx : FaissIndex) (meta : List Meta) : Except LoadError VectorDB :=
  if !indexFileExists || !metadataFileExists then .error .fileNotFound
  else .ok ⟨idx, meta⟩

/-! ## Stable descending sort (Python `list.sort(key=k, reverse=True)`) -/

/-- Insert `x` (an element occurring *before* every element of the already
sorted list in the original order) keeping the list sorted descending:
`x` goes before the first element whose key is `≤ key x`, so ties keep
first-seen order — exactly CPython's stable `sort(reverse=True)`. -/
def insertDescBy {α : Type} (key : α → ℚ) (x : α) : List α → List α
  | [] => [x]
  | y :: ys => if key x < key y then y :: insertDescBy key x ys else x :: y :: ys

/-- Stable descending sort by `key`. -/
def pySortDesc {α : Type} (key : α → ℚ) : List α → List α
  | [] => []
  | x :: xs => insertDescBy key x (pySortDesc key xs)

/-! ## `advanced_retriever.preprocess_query` (lines 53-139) -/

/-- The query-expansion synonym table (`QUERY_EXPANSIONS`, lines 16-51). -/
def QUERY_EXPANSIONS : List (List Nat × List (List Nat)) :=
  [ (codes "java", ["java", "j2ee", "j2se", "jdk", "jvm", "spring", "hibernate", "core java", "automata"].map codes),
    (codes "python", ["python", "django", "flask", "pandas", "numpy", "data science"].map codes),
    (codes "sql", ["sql", "database", "mysql", "postgresql", "oracle", "query", "sql server", "ssas"].map codes),
    (codes "javascript", ["javascript", "javascript", "java script", "js", "node", "react", "angular", "vue", "frontend"].map codes),
    (codes "html", ["html", "css", "htmlcss", "web", "frontend", "markup"].map codes),
    (codes "css", ["css", "html", "htmlcss", "web", "frontend", "styling"].map codes),
    (codes "selenium", ["selenium", "automation", "testing", "qa", "web automation", "test automation"].map codes),
    (codes "excel", ["excel", "spreadsheet", "ms excel", "microsoft excel", "excel 365"].map codes),
    (codes "data analyst", ["data analyst", "data analysis", "analytics", "bi", "business intelligence", "tableau"].map codes),
    (codes "developer", ["developer", "programmer", "coder", "software engineer", "engineer", "technology"].map codes),
    (codes "sales", ["sales", "selling", "salesperson", "account manager", "entry level sales", "sales representative"].map codes),
    (codes "manager", ["manager", "management", "supervisor", "lead", "director", "marketing manager"].map codes),
    (codes "admin", ["admin", "administrative", "administrator", "clerical", "office", "assistant", "bank administrative"].map codes),
    (codes "leadership", ["leadership", "leader", "executive", "coo", "ceo", "cfo", "enterprise leadership"].map codes),
    (codes "consultant", ["consultant", "consulting", "advisory", "professional", "advisor"].map codes),
    (codes "qa", ["qa", "quality assurance", "testing", "test", "manual testing", "automation testing"].map codes),
    (codes "marketing", ["marketing", "digital marketing", "advertising", "digital advertising", "brand"].map codes),
    (codes "communication", ["communication", "verbal", "written", "english", "language", "interpersonal", "business communication"].map codes),
    (codes "personality", ["personality", "behavior", "behavioral", "traits", "opq", "opq32", "occupational personality"].map codes),
    (codes "cognitive", ["cognitive", "reasoning", "aptitude", "ability", "intelligence", "inductive", "deductive"].map codes),
    (codes "numerical", ["numerical", "math", "mathematics", "quantitative", "arithmetic", "calculation", "verify numerical"].map codes),
    (codes "verbal", ["verbal", "language", "comprehension", "reading", "writing", "verify verbal"].map codes),
    (codes "inductive", ["inductive", "inductive reasoning", "pattern recognition", "abstract reasoning"].map codes),
    (codes "entry", ["entry", "entry level", "graduate", "junior", "fresher", "new graduate"].map codes),
    (codes "senior", ["senior", "experienced", "advanced", "professional", "expert"].map codes) ]

/-- The role keyword families (`role_keywords`, lines 97-106). -/
def ROLE_KEYWORDS : List (List Nat × List (List Nat)) :=
  [ (codes "developer", ["developer", "programmer", "coder", "engineer", "software"].map codes),
    (codes "analyst", ["analyst", "data analyst", "business analyst", "data"].map codes),
    (codes "manager", ["manager", "supervisor", "lead", "director", "management"].map codes),
    (codes "admin", ["admin", "administrative", "administrator", "assistant", "clerical"].map codes),
    (codes "sales", ["sales", "salesperson", "account manager", "selling"].map codes),
    (codes "executive", ["executive", "coo", "ceo", "cfo", "leadership", "senior executive"].map codes),
    (codes "consultant", ["consultant", "consulting", "advisor", "advisory"].map codes),
    (codes "professional", ["professional", "specialist", "expert"].map codes) ]

/-- Skill extraction: for each synonym-table entry whose variant list has a
substring hit in the lowercased query, append the entry's *full* expansion
set (lines 87-93). -/
def extractSkills (ql : List Nat) : List (List Nat) :=
  QUERY_EXPANSIONS.foldl
    (fun acc kv => if kv.2.any (fun v => hasSub v ql) then acc ++ kv.2 else acc) []

/-- Role extraction: a family name is added when any of its keywords occurs
in the lowercased query (lines 95-112). -/
def extractRoles (ql : List Nat) : List (List Nat) :=
  ROLE_KEYWORDS.foldl
    (fun acc kv => if kv.2.any (fun v => hasSub v ql) then acc ++ [kv.1] else acc) []

/-- Test-type inference (lines 114-130); appends may produce duplicates,
exactly as in the source. -/
def extractTestTypes (ql : List Nat) : List (List Nat) :=
  (if hasSub (codes "personality") ql || hasSub (codes "behavior") ql || hasSub (codes "behavioral") ql
   then [codes "Personality & Behavior"] else []) ++
  (if hasSub (codes "cognitive") ql || hasSub (codes "aptitude") ql || hasSub (codes "reasoning") ql
   then [codes "Ability & Aptitude"] else []) ++
  (if hasSub (codes "knowledge") ql || hasSub (codes "skill") ql || hasSub (codes "technical") ql
   then [codes "Knowledge & Skills"] else []) ++
  (if hasSub (codes "communication") ql || hasSub (codes "verbal") ql || hasSub (codes "english") ql
   then [codes "Ability & Aptitude"] else []) ++
  (if hasSub (codes "numerical") ql || hasSub (codes "math") ql || hasSub (codes "quantitative") ql
   then [codes "Ability & Aptitude"] else []) ++
  (if hasSub (codes "situational") ql || hasSub (codes "judgement") ql || hasSub (codes "judgment") ql
   then [codes "Biodata & Situational Judgement"] else []) ++
  (if hasSub (codes "consultant") ql || hasSub (codes "professional") ql
   then [codes "Personality & Behavior", codes "Ability & Aptitude", codes "Competencies"] else [])

/-- Whitespace-run collapsing behind `cleanQuery` (`re.sub(r'\s+', ' ', q)`). -/
def collapseWSGo (prevWS : Bool) : List Nat → List Nat
  | [] => []
  | c :: cs =>
    if isWSC c then
      if prevWS then collapseWSGo true cs else 32 :: collapseWSGo true cs
    else c :: collapseWSGo false cs

/-- Query cleaning (lines 56-58): collapse whitespace runs, strip, then the
two `Java Script` spelling replacements. -/
def cleanQuery (q : List Nat) : List Nat :=
  replaceAll (codes "java script") (codes "javascript")
    (replaceAll (codes "Java Script") (codes "JavaScript")
      (pyStrip (collapseWSGo false q)))

/-- `preprocess_query`.  `list(set(...))` is modelled as first-occurrence
`dedup`: CPython's set iteration order for strings is hash-salt dependent,
and no verified claim depends on the order of `skills`/`roles`. -/
def preprocess_query (query : List Nat) : QueryInfo :=
  let q := cleanQuery query
  let ql := lowerStr q
  { original_query := q
    duration := extract_duration ql
    skills := (extractSkills ql).dedup
    roles := (extractRoles ql).dedup
    test_types := extractTestTypes ql
    expanded_query := q }

/-! ## `advanced_retriever.expand_query` (lines 142-180) -/

/-- The job-keyword additions of `expand_query` (lines 166-174). -/
def jobKeywordsOf (ql : List Nat) : List (List Nat) :=
  (if hasSub (codes "entry") ql || hasSub (codes "graduate") ql
   then ["entry level", "junior", "graduate"].map codes else []) ++
  (if hasSub (codes "senior") ql || hasSub (codes "experienced") ql
   then ["senior", "experienced", "professional"].map codes else []) ++
  (if hasSub (codes "manager") ql then [codes "management"] else []) ++
  (if hasSub (codes "analyst") ql then [codes "data analysis"] else [])

/-- `expand_query`: original query, then up to 8 skills, 5 roles and 3 job
keywords not already present as substrings, joined with spaces. -/
def expand_query (qi : QueryInfo) : List Nat :=
  let ql := lowerStr qi.original_query
  let parts := [qi.original_query]
    ++ (qi.skills.take 8).filter (fun s => !hasSub s ql)
    ++ (qi.roles.take 5).filter (fun r => !hasSub r ql)
    ++ ((jobKeywordsOf ql).take 3).filter (fun k => !hasSub k ql)
  List.intercalate [32] parts

/-! ## `advanced_retriever.hybrid_retrieve` (lines 183-278) -/

/-- The stopword set removed from the shared-token bonus (line 253). -/
def STOPWORDS : List (List Nat) :=
  ["the", "a", "an", "for", "and", "or", "to", "in", "of", "is", "are"].map codes

/-- Token-overlap bonus: `0.15` per shared non-stopword token between the
query words and the item-name words, as sets (lines 250-255). -/
def commonWordsBonus (ql nameL : List Nat) : ℚ :=
  let qw := (splitWS ql).dedup
  let common := (splitWS nameL).dedup.filter
    (fun w => qw.contains w && !STOPWORDS.contains w)
  if common.isEmpty then 0 else (common.length : ℚ) * (3/20)

/-- Keyword score of one metadata record in `hybrid_retrieve`
(lines 222-255); `q` is the (expanded) query text handed to the function. -/
def kwScoreHybrid (q : List Nat) (qi : QueryInfo) (m : Meta) : ℚ :=
  let ql := lowerStr q
  let nameL := lowerStr m.name
  let descL := lowerStr (m.description.getD [])
  let skills := qi.skills.dedup
  let roles := qi.roles.dedup
  (skills.map (fun s => if hasSub s nameL then (2/5 : ℚ) else if hasSub s descL then 1/10 else 0)).sum
  + (roles.map (fun r => if hasSub r nameL then (3/10 : ℚ) else if hasSub r descL then 1/10 else 0)).sum
  + (skills.map (fun s => if hasSub s ql && hasSub s nameL then (1/5 : ℚ) else 0)).sum
  + (qi.test_types.map (fun t => if (m.test_type.getD []).contains t then (1/5 : ℚ) else 0)).sum
  + commonWordsBonus ql nameL

/-- The candidate dictionary `hybrid_retrieve` builds (lines 260-273). -/
def mkHybridCandidate (semantic kws : ℚ) (m : Meta) : Candidate :=
  { url := m.url
    alternate_urls := m.alternate_urls
    name := m.name
    description := some (m.description.getD [])
    duration := some (m.duration.getD 0)
    remote_support := some (m.remote_support.getD (codes "No"))
    adaptive_support := some (m.adaptive_support.getD (codes "No"))
    test_type := some (m.test_type.getD [])
    semantic_score := semantic
    keyword_score := kws
    combined_score := semantic + kws
    distance := semantic + kws }

/-- The unsorted candidate pool `hybrid_retrieve` accumulates: one candidate
per search hit whose index is within the metadata array (out-of-range
positions are skipped, lines 211-213). -/
def hybridCandidates (q : List Nat) (qi : QueryInfo) (db : VectorDB)
    (emb : List ℚ) : List Candidate :=
  let pairs := db.index.search emb (min 150 db.index.ntotal)
  pairs.filterMap (fun p =>
    match db.metadata.get? p.2 with
    | none => none
    | some m => some (mkHybridCandidate p.1 (kwScoreHybrid q qi m) m))

/-- `hybrid_retrieve`: on a falsy embedding it returns `[]` (lines 194-196);
otherwise it scores the search hits, sorts by `combined_score` descending
(stable) and truncates to `top_k`. -/
def hybrid_retrieve (q : List Nat) (qi : QueryInfo) (db : VectorDB)
    (top_k : Nat) (emb : Option (List ℚ)) : List Candidate :=
  if !embTruthy emb then []
  else (pySortDesc (fun c => c.combined_score) (hybridCandidates q qi db (emb.getD []))).take top_k

/-! ## `advanced_retriever.filter_candidates` (lines 281-305) -/

/-- Duration soft-penalty condition: a truthy query duration, a positive
candidate duration, and the candidate exceeding the bound by more than the
30% tolerance (lines 290-294). -/
def durPenaltyCond (qi : QueryInfo) (c : Candidate) : Bool :=
  match qi.duration with
  | none => false
  | some qd =>
    decide (qd ≠ 0) &&
      (let cd := c.duration.getD 0
       decide (0 < cd) && decide ((qd : ℚ) * (13/10) < (cd : ℚ)))

/-- Test-type soft-penalty condition: the query states preferences and the
candidate matches none of them (lines 296-301). -/
def ttPenaltyCond (qi : QueryInfo) (c : Candidate) : Bool :=
  !qi.test_types.isEmpty &&
    !(qi.test_types.any (fun t => (c.test_type.getD []).contains t))

/-- Per-candidate soft penalties, applied in source order. -/
def applySoftPenalties (qi : QueryInfo) (c : Candidate) : Candidate :=
  let c1 := if durPenaltyCond qi c then { c with combined_score := c.combined_score * (9/10) } else c
  if ttPenaltyCond qi c1 then { c1 with combined_score := c1.combined_score * (19/20) } else c1

/-- `filter_candidates`: appends a (possibly penalty-scaled) copy of *every*
input candidate. -/
def filter_candidates (cs : List Candidate) (qi : QueryInfo) : List Candidate :=
  cs.map (applySoftPenalties qi)

/-! ## `advanced_retriever.rerank_rule_based` (lines 308-364) -/

/-- Bonus 1: `0.30` per skill occurring in the item name. -/
def skillNameBonus (qi : QueryInfo) (nameL : List Nat) : ℚ :=
  (qi.skills.map (fun s => if hasSub s nameL then (3/10 : ℚ) else 0)).sum

/-- Bonus 2: `0.25` per role occurring in the item name. -/
def roleNameBonus (qi : QueryInfo) (nameL : List Nat) : ℚ :=
  (qi.roles.map (fun r => if hasSub r nameL then (1/4 : ℚ) else 0)).sum

/-- Bonus 3: `0.15` when both durations are truthy and the candidate is
within the 20% tolerance (lines 331-336). -/
def durationBonus (qi : QueryInfo) (c : Candidate) : ℚ :=
  match qi.duration, c.duration with
  | some qd, some cd =>
    if qd ≠ 0 ∧ cd ≠ 0 ∧ (cd : ℚ) ≤ (qd : ℚ) * (6/5) then 3/20 else 0
  | _, _ => 0

/-- Bonus 4: `0.10` per preferred test type carried by the candidate. -/
def testTypeBonus (qi : QueryInfo) (c : Candidate) : ℚ :=
  (qi.test_types.map (fun t => if (c.test_type.getD []).contains t then (1/10 : ℚ) else 0)).sum

/-- Bonus 5: entry-level lexical-cue alignment. -/
def entryBonus (ql nameL : List Nat) : ℚ :=
  if (["entry", "graduate", "junior", "0-2", "0-3"].map codes).any (fun k => hasSub k ql) &&
     (["entry", "junior", "level"].map codes).any (fun k => hasSub k nameL)
  then 1/10 else 0

/-- Bonus 6: senior/experienced lexical-cue alignment. -/
def seniorBonus (ql nameL : List Nat) : ℚ :=
  if (["senior", "experienced", "5+", "years"].map codes).any (fun k => hasSub k ql) &&
     (["senior", "advanced", "professional"].map codes).any (fun k => hasSub k nameL)
  then 1/10 else 0

/-- Bonus 7: `0.05` when the query mentions remote work and the candidate's
`remote_support` equals `'Yes'` (an absent field compares unequal). -/
def remoteBonus (ql : List Nat) (c : Candidate) : ℚ :=
  if hasSub (codes "remote") ql && decide (c.remote_support = some (codes "Yes"))
  then 1/20 else 0

/-- The full rule-based rerank bonus of one candidate. -/
def ruleScore (qi : QueryInfo) (c : Candidate) : ℚ :=
  let ql := lowerStr qi.original_query
  let nameL := lowerStr c.name
  skillNameBonus qi nameL + roleNameBonus qi nameL + durationBonus qi c +
    testTypeBonus qi c + entryBonus ql nameL + seniorBonus ql nameL + remoteBonus ql c

/-- The in-loop score update of `rerank_rule_based`
(`combined_score += rerank_score`, lines 315-360). -/
def rerankUpdated (cs : List Candidate) (qi : QueryInfo) : List Candidate :=
  cs.map (fun c =>
    { c with combined_score := c.combined_score + ruleScore qi c
             rerank_score := ruleScore qi c })

/-- `rerank_rule_based`: update every candidate's scores, then stable-sort by
the updated `combined_score`, descending (lines 362-364). -/
def rerank_rule_based (cs : List Candidate) (qi : QueryInfo) : List Candidate :=
  pySortDesc (fun c => c.combined_score) (rerankUpdated cs qi)

/-! ## `xgboost_reranker` (load + rerank, lines 228-281) -/

/-- The deserialized learned-reranker artifact.  The artifact is external
binary data; its serving capability (feature extraction composed with the
classifier's positive-class probability, lines 263-272) is modelled as a
per-candidate score. -/
structure XgbModel where
  predictPos : Candidate → ℚ

/-- `load_xgboost_reranker`: `None` when the xgboost package or the model
file is absent; otherwise the unpickled artifact (a corrupt pickle raises
instead — in `retrieve_advanced` that is the `except` path). -/
def load_xgboost_reranker (xgboostAvailable fileExists : Bool)
    (artifact : XgbModel) : Option XgbModel :=
  if !xgboostAvailable then none
  else if !fileExists then none
  else some artifact

/-- `rerank_with_xgboost` (lines 242-281): score every candidate with the
model, stable-sort descending by that score, truncate to `top_k`. -/
def rerank_with_xgboost (cs : List Candidate) (model : XgbModel)
    (top_k : Nat) : List Candidate :=
  if cs.isEmpty then []
  else
    (pySortDesc (fun c => c.xgboost_score)
      (cs.map (fun c => { c with xgboost_score := model.predictPos c }))).take top_k

/-! ## `advanced_retriever.retrieve_advanced` (lines 367-421) -/

/-- `retrieve_advanced`.  External effects are explicit arguments:
`emb` is the embedding-gateway response used by `hybrid_retrieve`;
`xgbLoad` is the outcome of the guarded model-load block (`.error ()` when
the import or unpickling raises, `.ok none` when `load_xgboost_reranker`
returns `None`, `.ok (some m)` on success); `llmCall` is the outcome of the
guarded LLM rerank call.  Both failure modes cascade to
`rerank_rule_based` exactly as the `try/except` blocks do (lines 396-418). -/
def retrieve_advanced (query : List Nat) (db : VectorDB) (top_k : Nat)
    (use_llm_rerank use_xgboost_rerank : Bool)
    (emb : Option (List ℚ))
    (xgbLoad : Except Unit (Option XgbModel))
    (llmCall : Except Unit (List Candidate)) : List Candidate :=
  let qi := preprocess_query query
  let expanded := expand_query qi
  let cands := hybrid_retrieve expanded qi db 100 emb
  let filtered := filter_candidates cands qi
  let reranked :=
    if use_xgboost_rerank then
      match xgbLoad with
      | .error _ => rerank_rule_based filtered qi
      | .ok none => rerank_rule_based filtered qi
      | .ok (some model) => rerank_with_xgboost (filtered.take (top_k * 3)) model top_k
    else if use_llm_rerank then
      match llmCall with
      | .error _ => rerank_rule_based filtered qi
      | .ok l => l
    else rerank_rule_based filtered qi
  reranked.take top_k

/-! ## `ensemble_retriever.keyword_only_retrieve` (lines 17-92) -/

/-- Pure keyword score of one metadata record (lines 54-74): name and
description skill hits accumulate independently (no `elif` here). -/
def kwOnlyScore (q : List Nat) (qi : QueryInfo) (m : Meta) : ℚ :=
  ((qi.skills.dedup).map (fun s => if hasSub s (lowerStr m.name) then (3/10 : ℚ) else 0)).sum
  + ((qi.roles.dedup).map (fun r => if hasSub r (lowerStr m.name) then (1/4 : ℚ) else 0)).sum
  + ((qi.skills.dedup).map (fun s => if hasSub s (lowerStr (m.description.getD [])) then (1/10 : ℚ) else 0)).sum
  + ((qi.skills.dedup).map (fun s => if hasSub s (lowerStr q) && hasSub s (lowerStr m.name) then (3/20 : ℚ) else 0)).sum

/-- The candidate dictionary `keyword_only_retrieve` builds (lines 77-88). -/
def mkKeywordCandidate (m : Meta) (ks : ℚ) : Candidate :=
  { url := m.url
    alternate_urls := m.alternate_urls
    name := m.name
    description := some (m.description.getD [])
    duration := some (m.duration.getD 0)
    remote_support := some (m.remote_support.getD (codes "No"))
    adaptive_support := some (m.adaptive_support.getD (codes "No"))
    test_type := some (m.test_type.getD [])
    keyword_score := ks
    distance := ks }

/-- `keyword_only_retrieve`: broad semantic search, then keep only hits with
a *strictly positive* keyword score (line 76), sort by it descending,
truncate to `top_k`. -/
def keyword_only_retrieve (q : List Nat) (qi : QueryInfo) (db : VectorDB)
    (top_k : Nat) (emb : Option (List ℚ)) : List Candidate :=
  if !embTruthy emb then []
  else
    let pairs := db.index.search (emb.getD []) (min (top_k * 2) db.index.ntotal)
    let cands := pairs.filterMap (fun p =>
      match db.metadata.get? p.2 with
      | none => none
      | some m =>
        let ks := kwOnlyScore q qi m
        if 0 < ks then some (mkKeywordCandidate m ks) else none)
    (pySortDesc (fun c => c.keyword_score) cands).take top_k

/-! ## `ensemble_retriever.ensemble_retrieve` (lines 95-221)

The four contributing strategies each make their own external calls, so
their ranked result lists are passed in as values; the fusion logic
(lines 143-221) is embedded fully.  `candidate_scores` is an
insertion-ordered association list, as a Python dict is. -/

/-- One value of the `candidate_scores` dictionary. -/
structure EnsembleEntry where
  candidate : Candidate
  scores : List ℚ
  ranks : List Nat
  deriving Repr, DecidableEq

/-- Insertion-ordered map from URL to entry. -/
abbrev EnsembleMap := List (List Nat × EnsembleEntry)

/-- Update the entry stored under `url` in place. -/
def updAt (m : EnsembleMap) (url : List Nat)
    (f : EnsembleEntry → EnsembleEntry) : EnsembleMap :=
  m.map (fun p => if p.1 = url then (p.1, f p.2) else p)

/-- Membership test on the map's keys. -/
def hasUrl (m : EnsembleMap) (url : List Nat) : Bool :=
  m.any (fun p => p.1 == url)

/-- One strategy's contribution loop (lines 150-181): ranks count from 1;
a fresh URL appends a new entry whose candidate is the current one; an
existing URL appends score and rank, and (for the first, `advanced`
strategy only) also overwrites the stored candidate. -/
def addStrategyGo (getScore : Candidate → ℚ) (overwriteCand : Bool)
    (m : EnsembleMap) (rank : Nat) : List Candidate → EnsembleMap
  | [] => m
  | c :: cs =>
    let m' :=
      if hasUrl m c.url then
        updAt m c.url (fun e =>
          { candidate := if overwriteCand then c else e.candidate
            scores := e.scores ++ [getScore c]
            ranks := e.ranks ++ [rank] })
      else m ++ [(c.url, { candidate := c, scores := [getScore c], ranks := [rank] })]
    addStrategyGo getScore overwriteCand m' (rank + 1) cs

/-- The fully populated `candidate_scores` map: advanced (overwriting,
scored by `combined_score`), then SentenceTransformer (`score`, defaulting
to `semantic_score`), pure semantic (`distance`), keyword
(`keyword_score`). -/
def ensembleMapOf (adv st sem kw : List Candidate) : EnsembleMap :=
  addStrategyGo (fun c => c.keyword_score) false
    (addStrategyGo (fun c => c.distance) false
      (addStrategyGo (fun c => c.score.getD c.semantic_score) false
        (addStrategyGo (fun c => c.combined_score) true [] 1 adv) 1 st) 1 sem) 1 kw

/-- Ensemble scoring of one entry (lines 184-208): weighted top-two scores
(0.7/0.3), reciprocal-rank fusion with smoothing constant 60, blended
0.7/0.3. -/
def fuseEntry (e : EnsembleEntry) : Candidate :=
  let sorted := pySortDesc id e.scores
  let ens : ℚ :=
    match sorted with
    | a :: b :: _ => a * (7/10) + b * (3/10)
    | [a] => a
    | [] => 0
  let rrf : ℚ := (e.ranks.map (fun r => (1 : ℚ) / (60 + (r : ℚ)))).sum
  { e.candidate with
      ensemble_score := ens * (7/10) + rrf * (3/10)
      rrf_score := rrf }

/-- The pre-truncation, ensemble-scored candidate set (lines 184-208),
in dictionary (= first-seen) order. -/
def ensembleFused (adv st sem kw : List Candidate) : List Candidate :=
  (ensembleMapOf adv st sem kw).map (fun p => fuseEntry p.2)

/-- Strategy 5 of `ensemble_retrieve` (lines 138-141): advanced results
re-filtered by the query duration bound with 20% tolerance.  The source
computes this list but never feeds it into `candidate_scores`. -/
def duration_filtered_results (adv : List Candidate) (qd : Nat)
    (top_k : Nat) : List Candidate :=
  (adv.filter (fun r => decide (((r.duration.getD 0 : Nat) : ℚ) ≤ (qd : ℚ) * (6/5)))).take top_k

/-- `ensemble_retrieve` with `use_llm_rerank = False`: fuse, stable-sort by
`ensemble_score` descending, truncate to `top_k` (lines 210-221). -/
def ensemble_retrieve (adv st sem kw : List Candidate) (top_k : Nat) : List Candidate :=
  (pySortDesc (fun c => c.ensemble_score) (ensembleFused adv st sem kw)).take top_k

/-! ## Properties of the stable descending sort -/

/-- Output of a stage is sorted descending by its declared score field. -/
def SortedDescBy {α : Type} (key : α → ℚ) (l : List α) : Prop :=
  l.Pairwise (fun a b => key b ≤ key a)

/-- Equal-score candidates keep their first-seen input order: for every
score value, the output's equal-score subsequence is a sublist (order
preserved) of the input's. -/
def TiesStable {α : Type} (key : α → ℚ) (input output : List α) : Prop :=
  ∀ q : ℚ, (output.filter (fun a => decide (key a = q))).Sublist
    (input.filter (fun a => decide (key a = q)))

theorem mem_insertDescBy {α : Type} (key : α → ℚ) (x : α) (l : List α) (a : α) :
    a ∈ insertDescBy key x l ↔ a = x ∨ a ∈ l := by
  induction l with
  | nil => simp [insertDescBy]
  | cons y ys ih =>
    by_cases h : key x < key y
    · simp only [insertDescBy, if_pos h, List.mem_cons, ih]
      tauto
    · simp only [insertDescBy, if_neg h, List.mem_cons]

theorem length_insertDescBy {α : Type} (key : α → ℚ) (x : α) (l : List α) :
    (insertDescBy key x l).length = l.length + 1 := by
  induction l with
  | nil => rfl
  | cons y ys ih =>
    by_cases h : key x < key y
    · simp [insertDescBy, if_pos h, ih]
    · simp [insertDescBy, if_neg h]

theorem length_pySortDesc {α : Type} (key : α → ℚ) (l : List α) :
    (pySortDesc key l).length = l.length := by
  induction l with
  | nil => rfl
  | cons x xs ih => simp [pySortDesc, length_insertDescBy, ih]

theorem mem_pySortDesc {α : Type} (key : α → ℚ) (l : List α) (a : α) :
    a ∈ pySortDesc key l ↔ a ∈ l := by
  induction l with
  | nil => simp [pySortDesc]
  | cons x xs ih => simp [pySortDesc, mem_insertDescBy, ih]

theorem pairwise_insertDescBy {α : Type} (key : α → ℚ) (x : α) (l : List α)
    (h : l.Pairwise (fun a b => key b ≤ key a)) :
    (insertDescBy key x l).Pairwise (fun a b => key b ≤ key a) := by
  induction l with
  | nil => simp [insertDescBy]
  | cons y ys ih =>
    rcases List.pairwise_cons.mp h with ⟨hy, hys⟩
    by_cases hk : key x < key y
    · rw [insertDescBy, if_pos hk]
      refine List.pairwise_cons.mpr ⟨?_, ih hys⟩
      intro b hb
      rcases (mem_insertDescBy key x ys b).mp hb with rfl | hb
      · exact le_of_lt hk
      · exact hy b hb
    · rw [insertDescBy, if_neg hk]
      refine List.pairwise_cons.mpr ⟨?_, h⟩
      intro b hb
      rcases List.mem_cons.mp hb with rfl | hb
      · exact le_of_not_lt hk
      · exact le_trans (hy b hb) (le_of_not_lt hk)

theorem sortedDescBy_pySortDesc {α : Type} (key : α → ℚ) (l : List α) :
    SortedDescBy key (pySortDesc key l) := by
  induction l with
  | nil => exact List.Pairwise.nil
  | cons x xs ih => exact pairwise_insertDescBy key x _ ih

theorem filter_insertDescBy_eq {α : Type} (key : α → ℚ) (x : α) (l : List α)
    (q : ℚ) (hx : key x = q) :
    (insertDescBy key x l).filter (fun a => decide (key a = q)) =
      x :: l.filter (fun a => decide (key a = q)) := by
  induction l with
  | nil => simp [insertDescBy, List.filter, hx]
  | cons y ys ih =>
    by_cases hk : key x < key y
    · have hy : key y ≠ q := by rw [← hx]; exact ne_of_gt hk
      rw [insertDescBy, if_pos hk]
      simp [List.filter, hy, ih]
    · rw [insertDescBy, if_neg hk]
      simp [List.filter, hx]

theorem filter_insertDescBy_ne {α : Type} (key : α → ℚ) (x : α) (l : List α)
    (q : ℚ) (hx : key x ≠ q) :
    (insertDescBy key x l).filter (fun a => decide (key a = q)) =
      l.filter (fun a => decide (key a = q)) := by
  induction l with
  | nil => simp [insertDescBy, List.filter, hx]
  | cons y ys ih =>
    by_cases hk : key x < key y
    · rw [insertDescBy, if_pos hk]
      simp only [List.filter, ih]
    · rw [insertDescBy, if_neg hk]
      simp [List.filter, hx]

theorem filter_pySortDesc {α : Type} (key : α → ℚ) (l : List α) (q : ℚ) :
    (pySortDesc key l).filter (fun a => decide (key a = q)) =
      l.filter (fun a => decide (key a = q)) := by
  induction l with
  | nil => rfl
  | cons x xs ih =>
    by_cases hx : key x = q
    · rw [pySortDesc, filter_insertDescBy_eq key x _ q hx, ih]
      simp [List.filter, hx]
    · rw [pySortDesc, filter_insertDescBy_ne key x _ q hx, ih]
      simp [List.filter, hx]

theorem tiesStable_pySortDesc {α : Type} (key : α → ℚ) (l : List α) :
    TiesStable key l (pySortDesc key l) := by
  intro q
  rw [filter_pySortDesc]

theorem sortedDescBy_take {α : Type} (key : α → ℚ) (l : List α) (n : Nat)
    (h : SortedDescBy key l) : SortedDescBy key (l.take n) :=
  h.sublist (List.take_sublist n l)

theorem tiesStable_take_pySortDesc {α : Type} (key : α → ℚ) (l : List α) (n : Nat) :
    TiesStable key l ((pySortDesc key l).take n) := by
  intro q
  calc ((pySortDesc key l).take n).filter (fun a => decide (key a = q))
      |>.Sublist ((pySortDesc key l).filter (fun a => decide (key a = q))) :=
        (List.take_sublist n _).filter _
    _ = l.filter (fun a => decide (key a = q)) := filter_pySortDesc key l q

/-! ## Concrete fixtures for counterexamples and witnesses -/

/-- A database with an empty index and empty metadata array. -/
def emptyDb : VectorDB :=
  { index := { ntotal := 0, search := fun _ _ => [] }, metadata := [] }

/-- A single metadata record. -/
def metaA : Meta :=
  { url := codes "https://www.shl.com/solutions/products/product-catalog/view/a/"
    name := codes "A" }

/-- A two-vector index (so its size disagrees with `[metaA]`). -/
def idx2 : FaissIndex :=
  { ntotal := 2, search := fun _ k => ([((1 : ℚ), 0), ((1 : ℚ)/2, 1)]).take k }

/-! ## Claim C1 — embedding-gateway failure at retrieval time -/

/-- C1 counterexample: the claim says an embedding-gateway failure makes the
retrieval stage fail with an outcome distinguishable from a legitimately
empty result.  In fact `hybrid_retrieve` returns the plain empty list on a
failed embedding (`get_query_embedding` returns `None`), which is exactly
the value a legitimately empty search over a working embedding produces:
the two outcomes are indistinguishable. -/
theorem C1_counterexample :
    hybrid_retrieve (codes "java") (preprocess_query (codes "java")) emptyDb 10 none = [] ∧
    hybrid_retrieve (codes "java") (preprocess_query (codes "java")) emptyDb 10 (some [1]) = [] :=
  ⟨rfl, rfl⟩

/-- C1 (amended): for every query for which the embedding-gateway call
fails (`get_query_embedding` yields no vector), `hybrid_retrieve` silently
returns the empty candidate list — the same value as a legitimately empty
result, not a distinguishable failure outcome. -/
theorem C1_hybrid_retrieve_silent_empty_on_gateway_failure
    (q : List Nat) (qi : QueryInfo) (db : VectorDB) (top_k : Nat) :
    hybrid_retrieve q qi db top_k none = [] := rfl

/-! ## Claim C2 — paired-artifact loading -/

/-- C2 counterexample: the claim says a size mismatch between the vector
index and the metadata array makes loading raise an integrity error.  In
fact `get_vector_db` only checks file existence: with both files present
it returns a usable database whose index holds 2 vectors against a 1-entry
metadata array, and `hybrid_retrieve` then serves from it (the
out-of-range position is silently skipped, yielding 1 candidate). -/
theorem C2_counterexample :
    get_vector_db true true idx2 [metaA] = .ok ⟨idx2, [metaA]⟩ ∧
    idx2.ntotal ≠ [metaA].length ∧
    (hybrid_retrieve (codes "a") (preprocess_query (codes "a"))
      ⟨idx2, [metaA]⟩ 10 (some [1])).length = 1 :=
  ⟨rfl, by decide, by rfl⟩

/-- C2 (amended): corpus-artifact loading refuses to serve only when an
artifact is *absent*: `get_vector_db` raises `FileNotFoundError` exactly
when the index file or the metadata file is missing, and otherwise returns
the pair as loaded, performing no size-consistency check (queries over a
mismatched pair proceed, skipping index positions beyond the metadata
array). -/
theorem C2_get_vector_db_checks_only_existence
    (ip mp : Bool) (idx : FaissIndex) (meta : List Meta) :
    (get_vector_db ip mp idx meta = .error .fileNotFound ↔ (ip = false ∨ mp = false)) ∧
    (ip = true → mp = true → get_vector_db ip mp idx meta = .ok ⟨idx, meta⟩) := by
  cases ip <;> cases mp <;> simp [get_vector_db]

/-- Witness for C2 (amended) at concrete inputs. -/
theorem C2_witness :
    get_vector_db true true idx2 [] = .ok ⟨idx2, []⟩ :=
  (C2_get_vector_db_checks_only_existence true true idx2 []).2 rfl rfl

/-! ## Claim C4 — the Soft Filter never removes candidates -/

/-- C4: the Soft Filter output has exactly the length of its input; every
candidate is kept with all fields unchanged except `combined_score`, which
is multiplied by `0.9` exactly when the item duration exceeds the query's
duration bound by more than the 30% tolerance, and by `0.95` exactly when
the item has no category overlap with the query's preferred categories. -/
theorem C4_soft_filter_never_removes (cs : List Candidate) (qi : QueryInfo) :
    (filter_candidates cs qi).length = cs.length ∧
    filter_candidates cs qi = cs.map (applySoftPenalties qi) ∧
    ∀ c, (applySoftPenalties qi c).url = c.url ∧
      (applySoftPenalties qi c).name = c.name ∧
      (applySoftPenalties qi c).duration = c.duration ∧
      (applySoftPenalties qi c).test_type = c.test_type ∧
      (applySoftPenalties qi c).semantic_score = c.semantic_score ∧
      (applySoftPenalties qi c).keyword_score = c.keyword_score ∧
      (applySoftPenalties qi c).combined_score = c.combined_score *
        (if durPenaltyCond qi c then 9/10 else 1) *
        (if ttPenaltyCond qi c then 19/20 else 1) := by
  refine ⟨by simp [filter_candidates], rfl, ?_⟩
  intro c
  have htt : ttPenaltyCond qi { c with combined_score := c.combined_score * (9/10) } =
      ttPenaltyCond qi c := rfl
  unfold applySoftPenalties
  by_cases hd : durPenaltyCond qi c <;> by_cases ht : ttPenaltyCond qi c <;>
    simp [hd, ht, htt]

/-! ## Claim C3 — every stage's output sorted descending, stable ties -/

/-- C3: for every query, the output of hybrid retrieval and of rule-based
reranking is sorted descending by `combined_score`, and the output of
ensemble fusion is sorted descending by `ensemble_score`; in each case
candidates with equal scores keep their first-seen input order (the
equal-score subsequence of the output is an order-preserving sublist of
the stage's scored input). -/
theorem C3_stage_outputs_sorted_and_stable
    (q : List Nat) (qi : QueryInfo) (db : VectorDB) (k : Nat) (emb : Option (List ℚ))
    (cs adv st sem kw : List Candidate) :
    (SortedDescBy (fun c => c.combined_score) (hybrid_retrieve q qi db k emb) ∧
      TiesStable (fun c => c.combined_score)
        (hybridCandidates q qi db (emb.getD [])) (hybrid_retrieve q qi db k emb)) ∧
    (SortedDescBy (fun c => c.combined_score) (rerank_rule_based cs qi) ∧
      TiesStable (fun c => c.combined_score)
        (rerankUpdated cs qi) (rerank_rule_based cs qi)) ∧
    (SortedDescBy (fun c => c.ensemble_score) (ensemble_retrieve adv st sem kw k) ∧
      TiesStable (fun c => c.ensemble_score)
        (ensembleFused adv st sem kw) (ensemble_retrieve adv st sem kw k)) := by
  refine ⟨⟨?_, ?_⟩, ⟨?_, ?_⟩, ⟨?_, ?_⟩⟩
  · unfold hybrid_retrieve
    by_cases h : embTruthy emb
    · simp only [h, Bool.not_true, Bool.false_eq_true, if_false]
      exact sortedDescBy_take _ _ _ (sortedDescBy_pySortDesc _ _)
    · simp only [h, Bool.not_false, if_true]
      exact List.Pairwise.nil
  · unfold hybrid_retrieve
    by_cases h : embTruthy emb
    · simp only [h, Bool.not_true, Bool.false_eq_true, if_false]
      exact tiesStable_take_pySortDesc _ _ _
    · simp only [h, Bool.not_false, if_true]
      intro s
      exact List.nil_sublist _
  · exact sortedDescBy_pySortDesc _ _
  · exact tiesStable_pySortDesc _ _
  · exact sortedDescBy_take _ _ _ (sortedDescBy_pySortDesc _ _)
  · exact tiesStable_take_pySortDesc _ _ _

/-! ## Claim C7 — transparent fallback when the learned reranker is unavailable -/

/-- C7: when the learned-reranker artifact is missing (`load_xgboost_reranker`
returns `None`, i.e. `xgbLoad = .ok none`) or corrupt (loading raises,
`xgbLoad = .error ()`), `retrieve_advanced` returns exactly the rule-based
rerank of the filtered hybrid pool, truncated to `top_k` — a ranked
(descending by `combined_score`) list of at most `top_k` candidates, with
no error surfaced to the caller. -/
theorem C7_fallback_to_rule_based_reranker
    (query : List Nat) (db : VectorDB) (top_k : Nat) (use_llm : Bool)
    (emb : Option (List ℚ)) (llmCall : Except Unit (List Candidate))
    (xgbLoad : Except Unit (Option XgbModel))
    (h : xgbLoad = .error () ∨ xgbLoad = .ok none) :
    retrieve_advanced query db top_k use_llm true emb xgbLoad llmCall =
      (rerank_rule_based
        (filter_candidates
          (hybrid_retrieve (expand_query (preprocess_query query))
            (preprocess_query query) db 100 emb)
          (preprocess_query query))
        (preprocess_query query)).take top_k ∧
    SortedDescBy (fun c => c.combined_score)
      (retrieve_advanced query db top_k use_llm true emb xgbLoad llmCall) ∧
    (retrieve_advanced query db top_k use_llm true emb xgbLoad llmCall).length ≤ top_k := by
  have hres : retrieve_advanced query db top_k use_llm true emb xgbLoad llmCall =
      (rerank_rule_based
        (filter_candidates
          (hybrid_retrieve (expand_query (preprocess_query query))
            (preprocess_query query) db 100 emb)
          (preprocess_query query))
        (preprocess_query query)).take top_k := by
    rcases h with rfl | rfl <;> rfl
  refine ⟨hres, ?_, ?_⟩
  · rw [hres]
    exact sortedDescBy_take _ _ _ (sortedDescBy_pySortDesc _ _)
  · rw [hres]
    exact (List.length_take _ _).trans_le (min_le_left _ _)

/-- Witness for C7 at a concrete input (missing model artifact). -/
theorem C7_witness :
    retrieve_advanced (codes "java") emptyDb 5 false true none (.ok none) (.ok []) = [] ∧
    (retrieve_advanced (codes "java") emptyDb 5 false true none (.ok none) (.ok [])).length ≤ 5 := by
  have h := C7_fallback_to_rule_based_reranker (codes "java") emptyDb 5 false none
    (.ok []) (.ok none) (Or.inr rfl)
  exact ⟨by rw [h.1]; rfl, h.2.2⟩

/-! ## Claim C8 — the rule-based reranker is total and neutral on missing fields -/

/-- C8: the rule-based reranker is a total function that scores every
candidate: the output has the input's length and each output candidate is
an input candidate with a defined `rerank_score` (its rule bonus) added
into `combined_score`.  Every absent optional field is neutral: a missing
duration yields a zero duration bonus, a missing category list a zero
test-type bonus, a missing remote-support field a zero remote bonus, and
the description never influences the bonus at all. -/
theorem C8_rule_reranker_total_and_neutral
    (qi : QueryInfo) (cs : List Candidate) (c : Candidate)
    (hdur : c.duration = none) (htt : c.test_type = none)
    (hrem : c.remote_support = none) :
    (rerank_rule_based cs qi).length = cs.length ∧
    (∀ c' ∈ rerank_rule_based cs qi, ∃ c0 ∈ cs,
        c' = { c0 with combined_score := c0.combined_score + ruleScore qi c0
                       rerank_score := ruleScore qi c0 }) ∧
    durationBonus qi c = 0 ∧
    testTypeBonus qi c = 0 ∧
    remoteBonus (lowerStr qi.original_query) c = 0 ∧
    (∀ d, ruleScore qi { c with description := d } = ruleScore qi c) := by
  refine ⟨?_, ?_, ?_, ?_, ?_, fun d => rfl⟩
  · rw [rerank_rule_based, length_pySortDesc, rerankUpdated, List.length_map]
  · intro c' hc'
    rw [rerank_rule_based, mem_pySortDesc, rerankUpdated, List.mem_map] at hc'
    rcases hc' with ⟨c0, hc0, rfl⟩
    exact ⟨c0, hc0, rfl⟩
  · cases hq : qi.duration <;> simp [durationBonus, hdur, hq]
  · apply List.sum_eq_zero
    intro x hx
    rcases List.mem_map.mp hx with ⟨t, _, rfl⟩
    simp [htt]
  · simp [remoteBonus, hrem]

/-- Witness for C8 at a concrete input: a candidate lacking all optional
fields is still scored, with neutral bonuses. -/
theorem C8_witness :
    (rerank_rule_based [{ url := codes "u" }] (preprocess_query (codes "java developer"))).length = 1 ∧
    durationBonus (preprocess_query (codes "java developer")) { url := codes "u" } = 0 ∧
    testTypeBonus (preprocess_query (codes "java developer")) { url := codes "u" } = 0 := by
  have h := C8_rule_reranker_total_and_neutral (preprocess_query (codes "java developer"))
    [{ url := codes "u" }] { url := codes "u" } rfl rfl rfl
  exact ⟨h.1, h.2.2.1, h.2.2.2.1⟩

/-! ## Claim C10 — keyword-only retrieval keeps only strictly positive scores -/

/-- C10: `keyword_only_retrieve` returns only candidates with a strictly
positive keyword score, and when none of the query's extracted skill
tokens occurs in any candidate's name or description and none of its role
tokens occurs in any candidate's name, it returns the empty list — in
particular it may return fewer than `top_k` items however large the index
is. -/
theorem C10_keyword_only_requires_positive_score
    (q : List Nat) (qi : QueryInfo) (db : VectorDB) (top_k : Nat)
    (emb : Option (List ℚ)) :
    (∀ c ∈ keyword_only_retrieve q qi db top_k emb, 0 < c.keyword_score) ∧
    ((∀ m ∈ db.metadata,
        (∀ s ∈ qi.skills.dedup, hasSub s (lowerStr m.name) = false ∧
          hasSub s (lowerStr (m.description.getD [])) = false) ∧
        (∀ r ∈ qi.roles.dedup, hasSub r (lowerStr m.name) = false)) →
      keyword_only_retrieve q qi db top_k emb = []) := by
  constructor
  · intro c hc
    unfold keyword_only_retrieve at hc
    by_cases he : embTruthy emb
    · simp only [he, Bool.not_true, Bool.false_eq_true, if_false] at hc
      have hc2 := (mem_pySortDesc _ _ c).mp (List.mem_of_mem_take hc)
      rcases List.mem_filterMap.mp hc2 with ⟨p, _, hp⟩
      rcases hm : db.metadata.get? p.2 with _ | m
      · rw [hm] at hp; exact absurd hp (by simp)
      · rw [hm] at hp
        dsimp only at hp
        by_cases hk : 0 < kwOnlyScore q qi m
        · rw [if_pos hk] at hp
          obtain rfl := (Option.some.inj hp).symm
          exact hk
        · rw [if_neg hk] at hp
          exact absurd hp (by simp)
    · simp only [he, Bool.not_false, if_true] at hc
      exact absurd hc (List.not_mem_nil c)
  · intro hnone
    unfold keyword_only_retrieve
    by_cases he : embTruthy emb
    · simp only [he, Bool.not_true, Bool.false_eq_true, if_false]
      have hnil : (db.index.search (emb.getD []) (min (top_k * 2) db.index.ntotal)).filterMap
          (fun p => match db.metadata.get? p.2 with
            | none => none
            | some m =>
              let ks := kwOnlyScore q qi m
              if 0 < ks then some (mkKeywordCandidate m ks) else none) = [] := by
        apply List.filterMap_eq_nil_iff.mpr
        intro p _
        rcases hm : db.metadata.get? p.2 with _ | m
        · simp
        · have hmem : m ∈ db.metadata := List.get?_mem hm
          rcases hnone m hmem with ⟨hs, hr⟩
          have hzero : kwOnlyScore q qi m = 0 := by
            unfold kwOnlyScore
            have z1 : ((qi.skills.dedup).map (fun s =>
                if hasSub s (lowerStr m.name) then (3/10 : ℚ) else 0)).sum = 0 := by
              apply List.sum_eq_zero
              intro x hx
              rcases List.mem_map.mp hx with ⟨s, hsm, rfl⟩
              simp [(hs s hsm).1]
            have z2 : ((qi.roles.dedup).map (fun r =>
                if hasSub r (lowerStr m.name) then (1/4 : ℚ) else 0)).sum = 0 := by
              apply List.sum_eq_zero
              intro x hx
              rcases List.mem_map.mp hx with ⟨r, hrm, rfl⟩
              simp [hr r hrm]
            have z3 : ((qi.skills.dedup).map (fun s =>
                if hasSub s (lowerStr (m.description.getD [])) then (1/10 : ℚ) else 0)).sum = 0 := by
              apply List.sum_eq_zero
              intro x hx
              rcases List.mem_map.mp hx with ⟨s, hsm, rfl⟩
              simp [(hs s hsm).2]
            have z4 : ((qi.skills.dedup).map (fun s =>
                if hasSub s (lowerStr q) && hasSub s (lowerStr m.name) then (3/20 : ℚ) else 0)).sum = 0 := by
              apply List.sum_eq_zero
              intro x hx
              rcases List.mem_map.mp hx with ⟨s, hsm, rfl⟩
              simp [(hs s hsm).1]
            rw [z1, z2, z3, z4]
            ring
          simp [hzero]
      rw [hnil]
      simp [pySortDesc]
    · simp only [he, Bool.not_false, if_true]

/-- Query signals with one skill token that matches nothing in `metaA`. -/
def qiPython : QueryInfo :=
  { original_query := codes "python", skills := [codes "python"] }

/-- Witness for C10 at a concrete input: a python-skill query over a catalog
whose only item matches no token returns the empty list even though
`top_k = 3 > 0` items could have been requested. -/
theorem C10_witness :
    keyword_only_retrieve (codes "python") qiPython ⟨idx2, [metaA]⟩ 3 (some [1]) = [] ∧
    (∀ c ∈ keyword_only_retrieve (codes "python") qiPython ⟨idx2, [metaA]⟩ 3 (some [1]),
      0 < c.keyword_score) := by
  have h := C10_keyword_only_requires_positive_score (codes "python")
    qiPython ⟨idx2, [metaA]⟩ 3 (some [1])
  exact ⟨h.2 (by decide), h.1⟩

/-! ## Claim C5 — fusion coverage of every contributing strategy -/

/-- Key/candidate agreement invariant of the `candidate_scores` map: the
entry stored under a URL always holds a candidate with that URL. -/
def EntryKeysMatch (m : EnsembleMap) : Prop :=
  ∀ p ∈ m, (p : List Nat × EnsembleEntry).2.candidate.url = p.1

theorem hasUrl_updAt (m : EnsembleMap) (u : List Nat)
    (f : EnsembleEntry → EnsembleEntry) (url : List Nat) :
    hasUrl (updAt m u f) url = hasUrl m url := by
  unfold hasUrl updAt
  induction m with
  | nil => rfl
  | cons p ps ih =>
    by_cases h : p.1 = u <;> simp_all

theorem hasUrl_append_single (m : EnsembleMap) (x : List Nat × EnsembleEntry)
    (url : List Nat) :
    hasUrl (m ++ [x]) url = (hasUrl m url || (x.1 == url)) := by
  unfold hasUrl
  simp [List.any_append]

theorem hasUrl_addStrategyGo (gs : Candidate → ℚ) (ow : Bool)
    (cs : List Candidate) (url : List Nat) :
    ∀ (m : EnsembleMap) (rank : Nat), hasUrl m url = true →
      hasUrl (addStrategyGo gs ow m rank cs) url = true := by
  induction cs with
  | nil => intro m rank h; exact h
  | cons c cs ih =>
    intro m rank h
    rw [addStrategyGo]
    apply ih
    by_cases hc : hasUrl m c.url
    · rw [if_pos hc, hasUrl_updAt]; exact h
    · rw [if_neg hc, hasUrl_append_single, h, Bool.true_or]

theorem mem_hasUrl_addStrategyGo (gs : Candidate → ℚ) (ow : Bool)
    (cs : List Candidate) (c : Candidate) (hc : c ∈ cs) :
    ∀ (m : EnsembleMap) (rank : Nat),
      hasUrl (addStrategyGo gs ow m rank cs) c.url = true := by
  induction cs with
  | nil => cases hc
  | cons x xs ih =>
    intro m rank
    rcases List.mem_cons.mp hc with rfl | hm
    · rw [addStrategyGo]
      apply hasUrl_addStrategyGo
      by_cases hx : hasUrl m c.url
      · rw [if_pos hx, hasUrl_updAt]; exact hx
      · rw [if_neg hx, hasUrl_append_single]
        simp
    · rw [addStrategyGo]
      exact ih hm _ _

theorem entryKeysMatch_updAt (m : EnsembleMap) (u : List Nat)
    (f : EnsembleEntry → EnsembleEntry) (h : EntryKeysMatch m)
    (hf : ∀ e, (f e).candidate.url = u ∨ (f e).candidate = e.candidate) :
    EntryKeysMatch (updAt m u f) := by
  intro p hp
  rcases List.mem_map.mp hp with ⟨q, hq, rfl⟩
  by_cases hqu : q.1 = u
  · simp only [if_pos hqu]
    rcases hf q.2 with h1 | h1
    · rw [h1, hqu]
    · rw [h1]
      exact h q hq
  · simp only [if_neg hqu]
    exact h q hq

theorem entryKeysMatch_addStrategyGo (gs : Candidate → ℚ) (ow : Bool)
    (cs : List Candidate) :
    ∀ (m : EnsembleMap) (rank : Nat), EntryKeysMatch m →
      EntryKeysMatch (addStrategyGo gs ow m rank cs) := by
  induction cs with
  | nil => intro m rank h; exact h
  | cons c cs ih =>
    intro m rank h
    rw [addStrategyGo]
    apply ih
    by_cases hc : hasUrl m c.url
    · rw [if_pos hc]
      apply entryKeysMatch_updAt _ _ _ h
      intro e
      by_cases how : ow
      · exact Or.inl (by simp [how])
      · exact Or.inr (by simp [how])
    · rw [if_neg hc]
      intro p hp
      rcases List.mem_append.mp hp with hp | hp
      · exact h p hp
      · rcases List.mem_singleton.mp hp with rfl
        rfl

theorem entryKeysMatch_ensembleMapOf (adv st sem kw : List Candidate) :
    EntryKeysMatch (ensembleMapOf adv st sem kw) := by
  unfold ensembleMapOf
  apply entryKeysMatch_addStrategyGo
  apply entryKeysMatch_addStrategyGo
  apply entryKeysMatch_addStrategyGo
  apply entryKeysMatch_addStrategyGo
  intro p hp
  cases hp

/-- The URL of every candidate of every contributing strategy ends up as a
key of the populated `candidate_scores` map. -/
theorem hasUrl_ensembleMapOf (adv st sem kw : List Candidate) (c : Candidate)
    (hc : c ∈ adv ++ st ++ sem ++ kw) :
    hasUrl (ensembleMapOf adv st sem kw) c.url = true := by
  unfold ensembleMapOf
  rcases List.mem_append.mp hc with hc1 | hkw
  · rcases List.mem_append.mp hc1 with hc2 | hsem
    · rcases List.mem_append.mp hc2 with hadv | hst
      · apply hasUrl_addStrategyGo
        apply hasUrl_addStrategyGo
        apply hasUrl_addStrategyGo
        exact mem_hasUrl_addStrategyGo _ _ _ _ hadv _ _
      · apply hasUrl_addStrategyGo
        apply hasUrl_addStrategyGo
        exact mem_hasUrl_addStrategyGo _ _ _ _ hst _ _
    · apply hasUrl_addStrategyGo
      exact mem_hasUrl_addStrategyGo _ _ _ _ hsem _ _
  · exact mem_hasUrl_addStrategyGo _ _ _ _ hkw _ _

/-- C5: every item (identified by URL) appearing in at least one
contributing strategy's result list appears in the fused, ensemble-scored
candidate set before top-K truncation; the truncated output contains only
fused candidates (truncation is the only removal afterward); and the
computed-but-unfused duration strategy adds no URL of its own, being a
filtering of the advanced results. -/
theorem C5_fusion_covers_every_strategy_item
    (adv st sem kw : List Candidate) (top_k qd : Nat) :
    (∀ c ∈ adv ++ st ++ sem ++ kw,
      ∃ c' ∈ ensembleFused adv st sem kw, c'.url = c.url) ∧
    (∀ c ∈ ensemble_retrieve adv st sem kw top_k, c ∈ ensembleFused adv st sem kw) ∧
    (∀ c ∈ duration_filtered_results adv qd top_k, c ∈ adv) := by
  refine ⟨?_, ?_, ?_⟩
  · intro c hc
    have hkeys := entryKeysMatch_ensembleMapOf adv st sem kw
    have hurl := hasUrl_ensembleMapOf adv st sem kw c hc
    unfold hasUrl at hurl
    rcases List.any_eq_true.mp hurl with ⟨p, hp, hpu⟩
    refine ⟨fuseEntry p.2, List.mem_map.mpr ⟨p, hp, rfl⟩, ?_⟩
    have : p.2.candidate.url = p.1 := hkeys p hp
    have hfu : (fuseEntry p.2).url = p.2.candidate.url := rfl
    rw [hfu, this]
    exact eq_of_beq hpu
  · intro c hc
    unfold ensemble_retrieve at hc
    exact (mem_pySortDesc _ _ c).mp (List.mem_of_mem_take hc)
  · intro c hc
    exact List.mem_of_mem_filter (List.mem_of_mem_take hc)

/-- Two distinct fixture candidates for the C5 witness. -/
def candA : Candidate := { url := codes "https://s/view/a", combined_score := 1 }

/-- Second fixture candidate. -/
def candB : Candidate := { url := codes "https://s/view/b", keyword_score := 1 }

/-- Witness for C5 at concrete inputs: a candidate seen only by the
advanced strategy and one seen only by the keyword strategy both survive
into the fused set. -/
theorem C5_witness :
    (∃ c' ∈ ensembleFused [candA] [] [] [candB], c'.url = candA.url) ∧
    (∃ c' ∈ ensembleFused [candA] [] [] [candB], c'.url = candB.url) :=
  ⟨(C5_fusion_covers_every_strategy_item [candA] [] [] [candB] 5 0).1 candA (by simp),
   (C5_fusion_covers_every_strategy_item [candA] [] [] [candB] 5 0).1 candB (by simp)⟩

/-! ## Claim C6 — duration extraction -/

theorem hasSub_of_leadsWith (t l : List Nat) (h : leadsWith t l = true) :
    hasSub t l = true := by
  cases l with
  | nil =>
    cases t with
    | nil => rfl
    | cons a as => simp [leadsWith] at h
  | cons c cs =>
    rw [hasSub, h, Bool.true_or]

theorem hasSub_of_suffix (t l₂ l : List Nat) (hs : l₂ <:+ l)
    (hl : leadsWith t l₂ = true) : hasSub t l = true := by
  rcases hs with ⟨pre, rfl⟩
  induction pre with
  | nil => exact hasSub_of_leadsWith t l₂ hl
  | cons p ps ih =>
    rw [List.cons_append, hasSub, ih, Bool.or_true]

theorem searchPat_success_suffix (m : List Nat → Option Nat) (q : List Nat)
    (n : Nat) (h : searchPat m q = some n) :
    ∃ l₂, l₂ <:+ q ∧ m l₂ = some n := by
  induction q with
  | nil => exact absurd h (by simp [searchPat])
  | cons c cs ih =>
    rw [searchPat] at h
    rcases hm : m (c :: cs) with _ | k
    · rw [hm] at h
      rcases ih h with ⟨l₂, hs, hml⟩
      exact ⟨l₂, hs.trans (List.suffix_cons c cs), hml⟩
    · rw [hm] at h
      cases h
      exact ⟨c :: cs, List.suffix_rfl, hm⟩

theorem expectDigits_suffix (l : List Nat) (n1 : Nat) (r : List Nat)
    (hd : expectDigits l = some (n1, r)) : r <:+ l := by
  unfold expectDigits at hd
  cases l with
  | nil => exact absurd hd (by simp)
  | cons c cs =>
    dsimp only at hd
    by_cases hc : isDigitC c
    · rw [if_pos hc] at hd
      simp only [Option.some.injEq, Prod.mk.injEq] at hd
      obtain ⟨-, h2⟩ := hd
      subst h2
      exact List.dropWhile_suffix isDigitC
    · rw [if_neg hc] at hd
      exact absurd hd (by simp)

theorem matchNumLit_success_lit (lit l : List Nat) (n : Nat)
    (h : matchNumLit lit l = some n) :
    ∃ r, r <:+ l ∧ leadsWith lit r = true := by
  unfold matchNumLit at h
  rcases hd : expectDigits l with _ | ⟨n1, r⟩
  · rw [hd] at h; exact absurd h (by simp)
  · rw [hd] at h
    dsimp only at h
    rcases he : expectLit lit (skipWS r) with _ | r2
    · rw [he] at h; exact absurd h (by simp)
    · refine ⟨skipWS r, ?_, ?_⟩
      · exact (List.dropWhile_suffix isWSC).trans (expectDigits_suffix l n1 r hd)
      · unfold expectLit at he
        by_cases hlw : leadsWith lit (skipWS r)
        · exact hlw
        · rw [if_neg hlw] at he
          exact absurd he (by simp)

/-- A successful search for `(\d+)\s*LIT` implies `LIT` occurs in the text. -/
theorem searchPat_matchNumLit_hasSub (lit q : List Nat) (n : Nat)
    (h : searchPat (matchNumLit lit) q = some n) : hasSub lit q = true := by
  rcases searchPat_success_suffix _ q n h with ⟨l₂, hs, hm⟩
  rcases matchNumLit_success_lit lit l₂ n hm with ⟨r, hr, hlw⟩
  exact hasSub_of_suffix lit r q (hr.trans hs) hlw

/-- C6 counterexample: the claim says a duration expressed in minutes is
returned as the number of minutes unchanged.  On the query
`"hr assessment 45 minutes"` the minutes pattern matches and captures 45,
yet `preprocess_query`'s extraction returns `2700`: the hours-to-minutes
multiplier fires whenever the substring `"hour"` or `"hr"` occurs anywhere
in the query (here, in "hr"), regardless of the unit that matched. -/
theorem C6_counterexample :
    searchPat (matchNumLit (codes "minute")) (codes "hr assessment 45 minutes") = some 45 ∧
    extract_duration (codes "hr assessment 45 minutes") = some 2700 := by
  constructor <;> decide

/-- C6 (amended): duration extraction tries the fixed priority-ordered
pattern list and the first satisfied pattern wins; a range expression such
as "30-40 minutes" yields the upper bound; a duration whose first
satisfied pattern is the hours pattern is multiplied by 60 (the query then
contains "hour"); and a duration expressed in minutes is returned
unchanged *provided* the query text contains neither "hour" nor "hr"
anywhere — otherwise the extracted number is multiplied by 60 regardless
of the matched unit. -/
theorem C6_duration_extraction_amended
    (q : List Nat) (n : Nat)
    (hh : hasSub (codes "hour") q = false) (hhr : hasSub (codes "hr") q = false)
    (hmin : searchPat (matchNumLit (codes "minute")) q = some n)
    (q2 : List Nat) (n2 : Nat)
    (hp1 : searchPat (matchNumLit (codes "minute")) q2 = none)
    (hp2 : searchPat (matchNumLit (codes "min")) q2 = none)
    (hhour : searchPat (matchNumLit (codes "hour")) q2 = some n2) :
    extract_duration q = some n ∧
    extract_duration q2 = some (n2 * 60) ∧
    extract_duration (codes "30-40 minutes") = some 40 ∧
    extract_duration (codes "30 to 40 minutes") = some 40 := by
  refine ⟨?_, ?_, by decide, by decide⟩
  · unfold extract_duration
    rw [hmin, hh, hhr]
    rfl
  · have hsub : hasSub (codes "hour") q2 = true :=
      searchPat_matchNumLit_hasSub (codes "hour") q2 n2 hhour
    unfold extract_duration
    rw [hp1, hp2, hhour, hsub]
    rfl

/-- Witness for C6 (amended) at concrete inputs. -/
theorem C6_witness :
    extract_duration (codes "45 minutes") = some 45 ∧
    extract_duration (codes "2 hours") = some 120 := by
  have h := C6_duration_extraction_amended (codes "45 minutes") 45
    (by decide) (by decide) (by decide)
    (codes "2 hours") 2 (by decide) (by decide) (by decide)
  exact ⟨h.1, h.2.1⟩

/-! ## Claim C9 — support lemmas about the normalizer's building blocks -/

theorem lowerChar_idem (c : Nat) : lowerChar (lowerChar c) = lowerChar c := by
  unfold lowerChar
  split_ifs <;> omega

theorem dropWhile_twice (p : Nat → Bool) (l : List Nat) :
    (l.dropWhile p).dropWhile p = l.dropWhile p := by
  induction l with
  | nil => rfl
  | cons c cs ih =>
    by_cases hc : p c
    · rw [List.dropWhile_cons, if_pos hc, ih]
    · rw [List.dropWhile_cons, if_neg hc, List.dropWhile_cons, if_neg hc]

theorem mem_pyStrip (l : List Nat) (a : Nat) (h : a ∈ pyStrip l) : a ∈ l := by
  unfold pyStrip at h
  have h1 := List.mem_reverse.mp h
  have h2 := (List.dropWhile_sublist isWSC).mem h1
  have h3 := List.mem_reverse.mp h2
  exact (List.dropWhile_sublist isWSC).mem h3

theorem mem_rstripSlash (l : List Nat) (a : Nat) (h : a ∈ rstripSlash l) : a ∈ l := by
  unfold rstripSlash at h
  have h1 := List.mem_reverse.mp h
  exact List.mem_reverse.mp ((List.dropWhile_sublist _).mem h1)

theorem rstripSlash_leadPart (l : List Nat) : rstripSlash l <+: l := by
  unfold rstripSlash
  have h := (List.dropWhile_suffix (fun c => c == 47) (l := l.reverse)).reverse
  rwa [List.reverse_reverse] at h

theorem head?_dropWhile (p : Nat → Bool) (l : List Nat) (c : Nat)
    (h : (l.dropWhile p).head? = some c) : p c = false := by
  induction l with
  | nil => exact absurd h (by simp)
  | cons x xs ih =>
    by_cases hx : p x
    · rw [List.dropWhile_cons, if_pos hx] at h
      exact ih h
    · rw [List.dropWhile_cons, if_neg hx] at h
      cases h
      exact Bool.not_eq_true _ ▸ hx

theorem rstripSlash_eq_self (l : List Nat)
    (h : ∀ c, l.getLast? = some c → c ≠ 47) : rstripSlash l = l := by
  unfold rstripSlash
  have hd : l.reverse.dropWhile (fun c => c == 47) = l.reverse := by
    cases hr : l.reverse with
    | nil => rfl
    | cons c cs =>
      have hc : l.getLast? = some c := by
        rw [← List.head?_reverse, hr]; rfl
      have : ¬((c == 47) = true) := by
        simpa using h c hc
      rw [List.dropWhile_cons, if_neg this]
  rw [hd, List.reverse_reverse]

theorem getLast?_rstripSlash (l : List Nat) (c : Nat)
    (h : (rstripSlash l).getLast? = some c) : c ≠ 47 := by
  unfold rstripSlash at h
  rw [← List.head?_reverse, List.reverse_reverse] at h
  have := head?_dropWhile _ _ _ h
  simpa using this

theorem afterLastOcc_suffix (sep l r : List Nat)
    (h : afterLastOcc sep l = some r) : r <:+ l := by
  induction l with
  | nil => exact absurd h (by simp [afterLastOcc])
  | cons c cs ih =>
    rw [afterLastOcc] at h
    rcases ha : afterLastOcc sep cs with _ | r2
    · rw [ha] at h
      dsimp only at h
      by_cases hl : leadsWith sep (c :: cs)
      · rw [if_pos hl] at h
        cases h
        exact List.drop_suffix _ _
      · rw [if_neg hl] at h
        exact absurd h (by simp)
    · rw [ha] at h
      dsimp only at h
      cases h
      exact (ih ha).trans (List.suffix_cons c cs)

theorem afterLastOcc_eq_none_iff (sep l : List Nat) (hsep : sep ≠ []) :
    afterLastOcc sep l = none ↔ hasSub sep l = false := by
  induction l with
  | nil =>
    simp only [afterLastOcc, hasSub, true_iff]
    simpa using hsep
  | cons c cs ih =>
    rw [afterLastOcc, hasSub]
    rcases ha : afterLastOcc sep cs with _ | r2
    · dsimp only
      have hcs : hasSub sep cs = false := (ih.mp ha)
      by_cases hl : leadsWith sep (c :: cs)
      · simp [hl, hcs]
      · simp [hl, hcs]
    · have hcs : hasSub sep cs = true := by
        rcases hh : hasSub sep cs with _ | _
        · exact absurd ha (by simp [ih.mpr hh])
        · rfl
      simp [hcs]

theorem hasSub_exists_suffix (t l : List Nat) (h : hasSub t l = true) :
    ∃ l₂, l₂ <:+ l ∧ leadsWith t l₂ = true := by
  induction l with
  | nil =>
    refine ⟨[], List.suffix_rfl, ?_⟩
    rw [hasSub] at h
    cases t with
    | nil => rfl
    | cons a as => simp at h
  | cons c cs ih =>
    rw [hasSub] at h
    rcases Bool.or_eq_true_iff.mp h with h1 | h1
    · exact ⟨c :: cs, List.suffix_rfl, h1⟩
    · rcases ih h1 with ⟨l₂, hs, hl⟩
      exact ⟨l₂, hs.trans (List.suffix_cons c cs), hl⟩

theorem leadsWith_append (t x y : List Nat) (h : leadsWith t x = true) :
    leadsWith t (x ++ y) = true := by
  induction t generalizing x with
  | nil => rfl
  | cons a as ih =>
    cases x with
    | nil => simp [leadsWith] at h
    | cons b bs =>
      rw [leadsWith, Bool.and_eq_true] at h
      rw [List.cons_append, leadsWith, Bool.and_eq_true]
      exact ⟨h.1, ih bs h.2⟩

theorem hasSub_mono_inside (t l₂ l : List Nat) (hinf : l₂ <:+: l)
    (h : hasSub t l₂ = true) : hasSub t l = true := by
  rcases hinf with ⟨pre, post, rfl⟩
  rcases hasSub_exists_suffix t l₂ h with ⟨s₂, hs, hl⟩
  have hsuf : s₂ ++ post <:+ pre ++ l₂ ++ post := by
    rcases hs with ⟨mid, rfl⟩
    exact ⟨pre ++ mid, by simp⟩
  exact hasSub_of_suffix t (s₂ ++ post) _ hsuf (leadsWith_append t s₂ post hl)

theorem afterLastOcc_no_sub (sep l r : List Nat) (hsep : sep ≠ [])
    (h : afterLastOcc sep l = some r) : hasSub sep r = false := by
  induction l with
  | nil => exact absurd h (by simp [afterLastOcc])
  | cons c cs ih =>
    rw [afterLastOcc] at h
    rcases ha : afterLastOcc sep cs with _ | r2
    · rw [ha] at h
      dsimp only at h
      by_cases hl : leadsWith sep (c :: cs)
      · rw [if_pos hl] at h
        cases h
        rcases hr : hasSub sep ((c :: cs).drop sep.length) with _ | _
        · rfl
        · exfalso
          cases sep with
          | nil => exact hsep rfl
          | cons s ss =>
            have hsuffix : (c :: cs).drop (s :: ss).length <:+ cs := by
              rw [List.length_cons, List.drop_succ_cons]
              exact List.drop_suffix _ _
            have hcs : hasSub (s :: ss) cs = true :=
              hasSub_mono_inside _ _ _ hsuffix.isInfix hr
            have hfalse := (afterLastOcc_eq_none_iff (s :: ss) cs hsep).mp ha
            rw [hcs] at hfalse
            cases hfalse
      · rw [if_neg hl] at h
        exact absurd h (by simp)
    · rw [ha] at h
      dsimp only at h
      cases h
      exact ih ha

theorem mem_replaceAll (pat rep l : List Nat) :
    ∀ a, a ∈ replaceAll pat rep l → a ∈ rep ∨ a ∈ l := by
  induction l using replaceAll.induct pat rep with
  | case1 =>
    intro a h
    rw [replaceAll] at h
    cases h
  | case2 c cs hcond ih =>
    intro a h
    rw [replaceAll, dif_pos hcond] at h
    rcases List.mem_append.mp h with h1 | h1
    · exact Or.inl h1
    · rcases ih a h1 with h2 | h2
      · exact Or.inl h2
      · exact Or.inr (List.mem_of_mem_drop h2)
  | case3 c cs hcond ih =>
    intro a h
    rw [replaceAll, dif_neg hcond] at h
    rcases List.mem_cons.mp h with rfl | h1
    · exact Or.inr (List.mem_cons_self a cs)
    · rcases ih a h1 with h2 | h2
      · exact Or.inl h2
      · exact Or.inr (List.mem_cons_of_mem c h2)

theorem replaceAll_ne_nil (pat rep l : List Nat) (hrep : rep ≠ [])
    (hl : l ≠ []) : replaceAll pat rep l ≠ [] := by
  cases l with
  | nil => exact absurd rfl hl
  | cons c cs =>
    rw [replaceAll]
    by_cases hcond : pat ≠ [] ∧ leadsWith pat (c :: cs) = true
    · rw [dif_pos hcond]
      cases rep with
      | nil => exact absurd rfl hrep
      | cons r rs => simp
    · rw [dif_neg hcond]
      simp

theorem leadsWith_replaceAll (pat : List Nat) (r : Nat) (l : List Nat) :
    ∀ t, leadsWith t (replaceAll pat [r] l) = true →
      r ∈ t ∨ leadsWith t l = true := by
  induction l using replaceAll.induct pat [r] with
  | case1 =>
    intro t h
    rw [replaceAll] at h
    exact Or.inr h
  | case2 c cs hcond ih =>
    intro t h
    rw [replaceAll, dif_pos hcond] at h
    cases t with
    | nil => exact Or.inr rfl
    | cons a as =>
      rw [List.singleton_append, leadsWith, Bool.and_eq_true] at h
      have ha : a = r := eq_of_beq h.1
      subst ha
      exact Or.inl (List.mem_cons_self a as)
  | case3 c cs hcond ih =>
    intro t h
    rw [replaceAll, dif_neg hcond] at h
    cases t with
    | nil => exact Or.inr rfl
    | cons a as =>
      rw [leadsWith, Bool.and_eq_true] at h
      rcases ih as h.2 with h2 | h2
      · exact Or.inl (List.mem_cons_of_mem a h2)
      · refine Or.inr ?_
        rw [leadsWith, Bool.and_eq_true]
        exact ⟨h.1, h2⟩

theorem hasSub_replaceAll (pat : List Nat) (r : Nat) (l : List Nat) :
    ∀ t, hasSub t (replaceAll pat [r] l) = true →
      r ∈ t ∨ hasSub t l = true := by
  induction l using replaceAll.induct pat [r] with
  | case1 =>
    intro t h
    rw [replaceAll] at h
    exact Or.inr h
  | case2 c cs hcond ih =>
    intro t h
    rw [replaceAll, dif_pos hcond, List.singleton_append, hasSub] at h
    rcases Bool.or_eq_true_iff.mp h with h1 | h1
    · cases t with
      | nil => exact Or.inr (hasSub_of_leadsWith [] (c :: cs) rfl)
      | cons a as =>
        rw [leadsWith, Bool.and_eq_true] at h1
        have ha : a = r := eq_of_beq h1.1
        subst ha
        exact Or.inl (List.mem_cons_self a as)
    · rcases ih t h1 with h2 | h2
      · exact Or.inl h2
      · exact Or.inr (hasSub_mono_inside t _ _ (List.drop_suffix _ _).isInfix h2)
  | case3 c cs hcond ih =>
    intro t h
    rw [replaceAll, dif_neg hcond, hasSub] at h
    rcases Bool.or_eq_true_iff.mp h with h1 | h1
    · cases t with
      | nil => exact Or.inr (hasSub_of_leadsWith [] (c :: cs) rfl)
      | cons a as =>
        rw [leadsWith, Bool.and_eq_true] at h1
        rcases leadsWith_replaceAll pat r cs as h1.2 with h2 | h2
        · exact Or.inl (List.mem_cons_of_mem a h2)
        · refine Or.inr (hasSub_of_leadsWith _ _ ?_)
          rw [leadsWith, Bool.and_eq_true]
          exact ⟨h1.1, h2⟩
    · rcases ih t h1 with h2 | h2
      · exact Or.inl h2
      · refine Or.inr ?_
        rw [hasSub, h2, Bool.or_true]

theorem getLast?_replaceAll (pat : List Nat) (r : Nat) (hr : r ≠ 47)
    (l : List Nat) :
    (∀ c, l.getLast? = some c → c ≠ 47) →
    ∀ c, (replaceAll pat [r] l).getLast? = some c → c ≠ 47 := by
  induction l using replaceAll.induct pat [r] with
  | case1 =>
    intro _ c h
    rw [replaceAll] at h
    cases h
  | case2 c0 cs hcond ih =>
    intro hP c h
    rw [replaceAll, dif_pos hcond, List.getLast?_append] at h
    rcases hrest : (replaceAll pat [r] ((c0 :: cs).drop pat.length)).getLast? with _ | x
    · rw [hrest] at h
      exact (Option.some.inj h) ▸ hr
    · rw [hrest] at h
      have hdropP : ∀ c, ((c0 :: cs).drop pat.length).getLast? = some c → c ≠ 47 := by
        intro c2 hc2
        rw [List.getLast?_drop] at hc2
        by_cases hlen : (c0 :: cs).length ≤ pat.length
        · rw [if_pos hlen] at hc2
          cases hc2
        · rw [if_neg hlen] at hc2
          exact hP c2 hc2
      exact (Option.some.inj h) ▸ ih hdropP x hrest
  | case3 c0 cs hcond ih =>
    intro hP c h
    rw [replaceAll, dif_neg hcond] at h
    rcases hrest : (replaceAll pat [r] cs).getLast? with _ | x
    · have hnil : replaceAll pat [r] cs = [] := by
        cases hre : replaceAll pat [r] cs with
        | nil => rfl
        | cons y ys => rw [hre] at hrest; simp [List.getLast?_concat] at hrest
      have hcs : cs = [] := by
        by_contra hne
        exact replaceAll_ne_nil pat [r] cs (by simp) hne hnil
      subst hcs
      rw [hnil] at h
      have hc0 : c0 ≠ 47 := hP c0 (by simp)
      have h2 : c0 = c := by simpa using h
      exact h2 ▸ hc0
    · have hne : replaceAll pat [r] cs ≠ [] := by
        intro hn
        rw [hn] at hrest
        cases hrest
      have hcons : (c0 :: replaceAll pat [r] cs).getLast? = (replaceAll pat [r] cs).getLast? := by
        cases hre : replaceAll pat [r] cs with
        | nil => exact absurd hre hne
        | cons y ys => rw [List.getLast?_cons_cons]
      rw [hcons, hrest] at h
      have hcsP : ∀ c, cs.getLast? = some c → c ≠ 47 := by
        intro c2 hc2
        apply hP
        cases cs with
        | nil => cases hc2
        | cons y ys => rw [List.getLast?_cons_cons]; exact hc2
      exact (Option.some.inj h) ▸ ih hcsP x hrest

/-- Decoding cannot create a `/view/` occurrence: all inserted characters
are `(`, `)`, space, `-`, none of which occurs in `/view/`. -/
theorem hasSub_viewSep_decodeSlug (l : List Nat)
    (h : hasSub viewSep (decodeSlug l) = true) : hasSub viewSep l = true := by
  unfold decodeSlug at h
  rcases hasSub_replaceAll _ 45 _ viewSep h with h1 | h1
  · exact absurd h1 (by decide)
  rcases hasSub_replaceAll _ 32 _ viewSep h1 with h2 | h2
  · exact absurd h2 (by decide)
  rcases hasSub_replaceAll _ 41 _ viewSep h2 with h3 | h3
  · exact absurd h3 (by decide)
  rcases hasSub_replaceAll _ 40 _ viewSep h3 with h4 | h4
  · exact absurd h4 (by decide)
  exact h4

/-- Decoding cannot create a trailing slash. -/
theorem getLast?_decodeSlug (l : List Nat)
    (hP : ∀ c, l.getLast? = some c → c ≠ 47) :
    ∀ c, (decodeSlug l).getLast? = some c → c ≠ 47 := by
  unfold decodeSlug
  apply getLast?_replaceAll _ 45 (by decide)
  apply getLast?_replaceAll _ 32 (by decide)
  apply getLast?_replaceAll _ 41 (by decide)
  exact getLast?_replaceAll _ 40 (by decide) _ hP

/-- Every character of the decoded slug is an inserted decode character or
a character of the input. -/
theorem mem_decodeSlug (l : List Nat) (a : Nat) (h : a ∈ decodeSlug l) :
    a ∈ ([40, 41, 32, 45] : List Nat) ∨ a ∈ l := by
  unfold decodeSlug at h
  rcases mem_replaceAll _ _ _ a h with h1 | h1
  · rcases List.mem_singleton.mp h1 with rfl
    exact Or.inl (by decide)
  rcases mem_replaceAll _ _ _ a h1 with h2 | h2
  · rcases List.mem_singleton.mp h2 with rfl
    exact Or.inl (by decide)
  rcases mem_replaceAll _ _ _ a h2 with h3 | h3
  · rcases List.mem_singleton.mp h3 with rfl
    exact Or.inl (by decide)
  rcases mem_replaceAll _ _ _ a h3 with h4 | h4
  · rcases List.mem_singleton.mp h4 with rfl
    exact Or.inl (by decide)
  · exact Or.inr h4

/-- Every character of a canonical slug is fixed by lowercasing. -/
theorem lowerChar_mem_normalize (url : List Nat) (c : Nat)
    (hc : c ∈ normalize_url_to_slug url) : lowerChar c = c := by
  unfold normalize_url_to_slug at hc
  by_cases hu : url.isEmpty
  · rw [if_pos hu] at hc
    cases hc
  · rw [if_neg hu] at hc
    rcases ha : afterLastOcc viewSep (rstripSlash (pyStrip (lowerStr url))) with _ | slug0
    · rw [ha] at hc
      dsimp only at hc
      have h1 : c ∈ lowerStr url := mem_pyStrip _ _ (mem_rstripSlash _ _ hc)
      rcases List.mem_map.mp h1 with ⟨y, _, rfl⟩
      exact lowerChar_idem y
    · rw [ha] at hc
      dsimp only at hc
      rcases mem_decodeSlug _ _ hc with h1 | h1
      · have h2 : c = 40 ∨ c = 41 ∨ c = 32 ∨ c = 45 := by simpa using h1
        rcases h2 with rfl | rfl | rfl | rfl <;> decide
      · have h2 : c ∈ slug0 := mem_rstripSlash _ _ h1
        have h3 : c ∈ rstripSlash (pyStrip (lowerStr url)) :=
          (afterLastOcc_suffix viewSep _ slug0 ha).mem h2
        have h4 : c ∈ lowerStr url := mem_pyStrip _ _ (mem_rstripSlash _ _ h3)
        rcases List.mem_map.mp h4 with ⟨y, _, rfl⟩
        exact lowerChar_idem y

/-- A canonical slug never ends in a slash. -/
theorem normalize_getLast_ne_slash (url : List Nat) :
    ∀ c, (normalize_url_to_slug url).getLast? = some c → c ≠ 47 := by
  intro c h
  unfold normalize_url_to_slug at h
  by_cases hu : url.isEmpty
  · rw [if_pos hu] at h
    cases h
  · rw [if_neg hu] at h
    rcases ha : afterLastOcc viewSep (rstripSlash (pyStrip (lowerStr url))) with _ | slug0
    · rw [ha] at h
      dsimp only at h
      exact getLast?_rstripSlash _ _ h
    · rw [ha] at h
      dsimp only at h
      exact getLast?_decodeSlug _ (fun c2 hc2 => getLast?_rstripSlash _ _ hc2) c h

/-- A canonical slug never contains `/view/`. -/
theorem normalize_no_viewSep (url : List Nat) :
    hasSub viewSep (normalize_url_to_slug url) = false := by
  unfold normalize_url_to_slug
  by_cases hu : url.isEmpty
  · rw [if_pos hu]
    decide
  · rw [if_neg hu]
    rcases ha : afterLastOcc viewSep (rstripSlash (pyStrip (lowerStr url))) with _ | slug0
    · dsimp only
      exact (afterLastOcc_eq_none_iff viewSep _ (by decide)).mp ha
    · dsimp only
      rcases hfin : hasSub viewSep (decodeSlug (rstripSlash slug0)) with _ | _
      · rfl
      · exfalso
        have h1 := hasSub_viewSep_decodeSlug _ hfin
        have h2 : hasSub viewSep slug0 = true :=
          hasSub_mono_inside _ _ _ (rstripSlash_leadPart slug0).isInfix h1
        have h3 := afterLastOcc_no_sub viewSep _ slug0 (by decide) ha
        rw [h2] at h3
        cases h3

/-- A canonical slug is lowercase-invariant. -/
theorem lowerStr_normalize (url : List Nat) :
    lowerStr (normalize_url_to_slug url) = normalize_url_to_slug url := by
  have h1 : (normalize_url_to_slug url).map lowerChar =
      (normalize_url_to_slug url).map id :=
    List.map_congr_left (fun a ha => lowerChar_mem_normalize url a ha)
  rw [lowerStr, h1, List.map_id]

/-- `normalize_url_to_slug` is the identity on any string already fixed by
its lowercasing, stripping and slash-stripping steps and containing no
`/view/`. -/
theorem normalize_of_clean (s : List Nat)
    (hlower : lowerStr s = s) (hstrip : pyStrip s = s)
    (hslash : rstripSlash s = s) (hview : hasSub viewSep s = false) :
    normalize_url_to_slug s = s := by
  by_cases hse : s = []
  · subst hse
    rfl
  · unfold normalize_url_to_slug
    rw [if_neg (by simpa using hse)]
    rw [hlower, hstrip, hslash,
      (afterLastOcc_eq_none_iff viewSep s (by decide)).mpr hview]

/-! ## Claim C9 — idempotence of URL normalization -/

/-- C9 counterexample: the claim says `normalize` is idempotent for every
string.  On `"a /"` the first application strips the trailing slash but
leaves the space in front of it, yielding `"a "`; the second application
strips that space, yielding `"a"` — so `normalize (normalize "a /") ≠
normalize "a /"`. -/
theorem C9_counterexample :
    normalize_url_to_slug (normalize_url_to_slug (codes "a /")) ≠
      normalize_url_to_slug (codes "a /") := by decide

/-- C9 (amended): URL normalization to a canonical slug is idempotent for
every input whose first-pass slug carries no leading or trailing
whitespace (equivalently, is fixed by `strip()`).  The only way a second
application can differ is the whitespace a first pass can leave at the
edges (a slash after spaces, or a percent-encoded space decoded at the
slug boundary); lowercasing, slash-stripping and `/view/`-splitting are
always exhausted by the first pass. -/
theorem C9_normalize_idempotent_on_stripped (url : List Nat)
    (h : pyStrip (normalize_url_to_slug url) = normalize_url_to_slug url) :
    normalize_url_to_slug (normalize_url_to_slug url) = normalize_url_to_slug url :=
  normalize_of_clean _ (lowerStr_normalize url) h
    (rstripSlash_eq_self _ (normalize_getLast_ne_slash url))
    (normalize_no_viewSep url)

/-- Witness for C9 (amended) at a concrete catalog URL. -/
theorem C9_witness :
    normalize_url_to_slug (normalize_url_to_slug
      (codes "https://www.shl.com/products/Java-Test/")) =
    normalize_url_to_slug (codes "https://www.shl.com/products/Java-Test/") :=
  C9_normalize_idempotent_on_stripped _ (by decide)

end SHL
